import Mathlib

/-!
Shallow embedding of the Finance repository's planner (intent classification
and context extraction, `src/agents/planner.py`) and allocation engine
(`src/agents/investment_agent.py`).  Text is modelled as `List Char`;
floating-point arithmetic of the source is modelled exactly over `ℚ`.
-/

namespace Finance

/-- Python's `str.lower()`, applied character-wise (ASCII-faithful). -/
def lowerStr (t : List Char) : List Char := t.map Char.toLower

/-- Substring test: does `p` occur contiguously inside `t`?
Models Python's `p in t` and `re.search` for a literal pattern. -/
def containsSub (p : List Char) : List Char → Bool
  | [] => p.isEmpty
  | c :: rest => p.isPrefixOf (c :: rest) || containsSub p rest

theorem containsSub_iff (p t : List Char) : containsSub p t = true ↔ p <:+: t := by
  induction t with
  | nil => simp [containsSub, List.isEmpty_iff]
  | cons c rest ih =>
    simp only [containsSub, Bool.or_eq_true, ih]
    constructor
    · rintro (h | h)
      · exact (List.isPrefixOf_iff_prefix.mp h).isInfix
      · exact List.infix_cons h
    · intro h
      rcases List.infix_cons_iff.mp h with h | h
      · exact Or.inl (List.isPrefixOf_iff_prefix.mpr h)
      · exact Or.inr h

/-- The closed intent enumeration of `PlannerAgent` (`planner.py`). -/
inductive Intent where
  | life_event
  | budget_optimization
  | investment_analysis
  | simulation
  | general
deriving DecidableEq, Repr

/-- The ordered keys of `self.query_patterns` (Python dicts preserve
insertion order). -/
def intentKeys : List Intent :=
  [Intent.life_event, Intent.budget_optimization,
   Intent.investment_analysis, Intent.simulation]

/-- The pattern sets of `self.query_patterns`.  Each regex in the source is
an alternation of literal substrings; it is modelled as the list of its
alternatives. -/
def intentPatterns : Intent → List (List String)
  | Intent.life_event =>
      [["vacation", "wedding", "baby", "house", "car", "moving", "retirement"],
       ["life event", "major purchase", "milestone"]]
  | Intent.budget_optimization =>
      [["bonus", "raise", "windfall", "extra money", "optimize", "budget"],
       ["allocate", "distribute", "spend", "save"]]
  | Intent.investment_analysis =>
      [["portfolio", "stocks", "bonds", "investment", "market", "returns"],
       ["performance", "analysis", "recommendation"]]
  | Intent.simulation =>
      [["what if", "scenario", "simulate", "predict", "forecast"],
       ["job loss", "career change", "emergency"]]
  | Intent.general => []

/-- `re.search(pattern, text, re.IGNORECASE)` for one alternation-of-literals
pattern: some alternative occurs in the case-folded text. -/
def patternMatches (alts : List String) (t : List Char) : Bool :=
  alts.any fun a => containsSub a.toList (lowerStr t)

/-- Does any pattern of the category match the text? -/
def categoryMatches (pats : List (List String)) (t : List Char) : Bool :=
  pats.any fun p => patternMatches p t

/-- The loop of `PlannerAgent._classify_query` over the ordered table. -/
def classifyAux : List Intent → List Char → Intent
  | [], _ => Intent.general
  | i :: rest, t =>
      if categoryMatches (intentPatterns i) t then i else classifyAux rest t

/-- `PlannerAgent._classify_query`: first category (in table order) with a
matching pattern, else `general`. -/
def classifyQuery (t : List Char) : Intent := classifyAux intentKeys t

/-- The multi-agent scan of `PlannerAgent._extract_context`
(lines 116-120): count the categories with a matching pattern. -/
def requiresMultipleAgents (t : List Char) : Bool :=
  1 < (intentKeys.filter fun qt => categoryMatches (intentPatterns qt) t).length

/-- The fixed confirmation-keyword list of `_extract_context` (line 123). -/
def confirmKeywords : List String :=
  ["invest now", "execute", "confirm", "do it", "deposit"]

/-- `_extract_context` line 124: `any(kw in user_input for kw in ...)`.
No case folding happens here; the argument is whatever text was passed in. -/
def executeFlag (t : List Char) : Bool :=
  confirmKeywords.any fun kw => containsSub kw.toList t

/-- The `execute_plaid` flag as produced by `PlannerAgent.process`, which
lowercases the raw input (line 31) before extraction. -/
def processExecuteFlag (input : List Char) : Bool :=
  executeFlag (lowerStr input)

/-- `PlannerAgent.process`-level classification of the raw input. -/
def processQueryType (input : List Char) : Intent :=
  classifyQuery (lowerStr input)

/-- Consume `(?:,\x7bd\x7d\x7b3\x7d)*`-style thousands groups: zero or more
repetitions of a comma followed by exactly three digits, returning the
consumed characters and the rest. -/
def commaGroups : List Char → List Char × List Char
  | ',' :: a :: b :: c :: rest =>
      if a.isDigit && b.isDigit && c.isDigit then
        let (g, r) := commaGroups rest
        (',' :: a :: b :: c :: g, r)
      else ([], ',' :: a :: b :: c :: rest)
  | other => ([], other)

/-- Optional cents part: a dot followed by exactly two digits. -/
def centsPart : List Char → List Char
  | '.' :: a :: b :: _ => if a.isDigit && b.isDigit then ['.', a, b] else []
  | _ => []

/-- Consume the optional leading dollar sign (`\$?`).  A `$` helps the match
only when a digit follows, and `$` is not itself a digit, so consuming an
initial `$` unconditionally is exact. -/
def dollarStrip (t : List Char) : List Char :=
  match t with
  | [] => []
  | c :: r => if c = '$' then r else c :: r

/-- A match attempt of the money pattern of `_extract_context` (line 69),
`\$?(\d+(?:,\d\x7b3\x7d)*(?:\.\d\x7b2\x7d)?)`, anchored at the start of `t`;
returns the captured group.  The pattern never needs backtracking, so
greedy left-to-right consumption is exact. -/
def matchMoneyAt (t : List Char) : Option (List Char) :=
  let t1 := dollarStrip t
  let ds := t1.takeWhile Char.isDigit
  if ds.isEmpty then none
  else
    let gr := commaGroups (t1.dropWhile Char.isDigit)
    some (ds ++ gr.1 ++ centsPart gr.2)

/-- The first (leftmost) match of the money pattern: the head of
`re.findall(money_pattern, user_input)`. -/
def firstMoney : List Char → Option (List Char)
  | [] => none
  | c :: rest =>
      match matchMoneyAt (c :: rest) with
      | some g => some g
      | none => firstMoney rest

/-- The `amount` context field: first money match with commas stripped
(`money_matches[0].replace(",", "")`), absent when there is no match. -/
def amountField (t : List Char) : Option (List Char) :=
  (firstMoney t).map fun m => m.filter fun c => c != ','

/-- The `amount` field as produced by `PlannerAgent.process`, which
lowercases the raw input before extraction. -/
def processAmount (input : List Char) : Option (List Char) :=
  amountField (lowerStr input)

/-- Numeric value of a digit string. -/
def digitsVal (ds : List Char) : ℕ :=
  ds.foldl (fun acc c => 10 * acc + (c.toNat - 48)) 0

/-- Python's `float(s)` restricted to the decimal literals that can reach the
engine: digits with an optional fractional part (`123`, `123.45`, `5.`,
`.5`); anything else (e.g. `abc`) fails, modelling the `ValueError` branch. -/
def pyFloat (s : List Char) : Option ℚ :=
  let ds := s.takeWhile Char.isDigit
  let r := s.dropWhile Char.isDigit
  match r with
  | [] => if ds.isEmpty then none else some (digitsVal ds)
  | '.' :: fr =>
      if fr.all Char.isDigit && !(ds.isEmpty && fr.isEmpty) then
        some ((digitsVal ds : ℚ) + (digitsVal fr : ℚ) / (10 : ℚ) ^ fr.length)
      else none
  | _ => none

/-- Python's `int(s)` on the strings the timeframe regex can capture:
an optional sign followed by digits. -/
def pyInt (s : List Char) : Option ℤ :=
  match s with
  | [] => none
  | '-' :: r => if !r.isEmpty && r.all Char.isDigit then some (-(digitsVal r : ℤ)) else none
  | _ => if s.all Char.isDigit then some (digitsVal s) else none

/-- Horizon derivation of `InvestmentAgent.process` (lines 60-65): when a
timeframe is present and its unit starts with `year`, parse its count as an
integer; parse failure leaves the horizon unknown. -/
def horizonOf (timeframe : Option (List Char × List Char)) : Option ℤ :=
  match timeframe with
  | some (n, u) => if ("year".toList).isPrefixOf u then pyInt n else none
  | none => none

/-- `risk_map = \x7b"low": 0.4, "medium": 0.6, "high": 0.8\x7d` (line 68). -/
def risk_map : List (List Char × ℚ) :=
  [("low".toList, 2/5), ("medium".toList, 3/5), ("high".toList, 4/5)]

/-- `risk_map.get(risk, 0.6)` (line 69). -/
def riskScore (risk : List Char) : ℚ :=
  ((risk_map.find? fun p => p.1 == risk).map Prod.snd).getD (3/5)

/-- `time_score = min(horizon / 30, 1.0) if horizon else 0.5` (line 70);
`if horizon` is Python truthiness, so a zero horizon takes the `else`
branch. -/
def time_score (horizon : Option ℤ) : ℚ :=
  match horizon with
  | some h => if h = 0 then 1/2 else min ((h : ℚ) / 30) 1
  | none => 1/2

/-- `stock_pct = 0.3 + 0.6 * (0.5 * risk_score + 0.5 * time_score)`
(line 71). -/
def stock_pct (risk : List Char) (horizon : Option ℤ) : ℚ :=
  3/10 + 3/5 * (1/2 * riskScore risk + 1/2 * time_score horizon)

/-- `cash_pct = 0.1 if horizon and horizon < 5 else 0.05` (line 72); again
`horizon and ...` is truthiness, so a zero horizon yields 0.05. -/
def cash_pct (horizon : Option ℤ) : ℚ :=
  match horizon with
  | some h => if h ≠ 0 ∧ h < 5 then 1/10 else 1/20
  | none => 1/20

/-- `bond_pct = max(0.0, 1.0 - stock_pct - cash_pct)` (line 73). -/
def bond_pct (risk : List Char) (horizon : Option ℤ) : ℚ :=
  max 0 (1 - stock_pct risk horizon - cash_pct horizon)

/-- Current share of one asset class: `value / total if total else 0`
(lines 88-90), avoiding division by zero by Python truthiness. -/
def currentPct (value total : ℚ) : ℚ :=
  if total ≠ 0 then value / total else 0

/-- `monthly_income - sum(fixed_expenses.values()) if monthly_income else
None` (lines 50-52).  `derive_monthly_income` returns `0.0` when no income
transactions are known, which is falsy, hence `None` here. -/
def available_for_investment (monthly_income : ℚ)
    (fixed_expenses : List (List Char × ℚ)) : Option ℚ :=
  if monthly_income ≠ 0 then some (monthly_income - (fixed_expenses.map Prod.snd).sum)
  else none

/-- `amount = float(amount_str) if amount_str else None`, with `ValueError`
caught to `None` (lines 54-57); the empty string is falsy. -/
def parseCtxAmount (amount_str : Option (List Char)) : Option ℚ :=
  match amount_str with
  | none => none
  | some s => if s.isEmpty then none else pyFloat s

/-- The context fields of the engine that the claims exercise. -/
structure EngineCtx where
  amount : Option (List Char)
  risk_tolerance : Option (List Char)
  timeframe : Option (List Char × List Char)
deriving Repr

/-- Observable shape of the engine's recommendation: which of the three
branches of `InvestmentAgent.process` (lines 95/135/156) produced it, and
the dollar splits or bare percentages it reports. -/
inductive EngineResult where
  | lumpSum (stocks bonds cash : ℚ)
  | recurring (stocks bonds cash : ℚ)
  | percentOnly (stock bond cash : ℚ)
deriving DecidableEq, Repr

/-- The branch structure of `InvestmentAgent.process`: explicit amount
first, else derived monthly surplus, else percentages only. -/
def processInvestment (ctx : EngineCtx) (monthly_income : ℚ)
    (fixed_expenses : List (List Char × ℚ)) : EngineResult :=
  let amount := parseCtxAmount ctx.amount
  let horizon := horizonOf ctx.timeframe
  let risk := ctx.risk_tolerance.getD ("medium".toList)
  let sp := stock_pct risk horizon
  let cp := cash_pct horizon
  let bp := bond_pct risk horizon
  match amount with
  | some a => EngineResult.lumpSum (a * sp) (a * bp) (a * cp)
  | none =>
      match available_for_investment monthly_income fixed_expenses with
      | some v => EngineResult.recurring (v * sp) (v * bp) (v * cp)
      | none => EngineResult.percentOnly sp bp cp

theorem isDigit_iff_toNat (c : Char) : c.isDigit = true ↔ 48 ≤ c.toNat ∧ c.toNat ≤ 57 := by
  simp only [Char.isDigit, Bool.and_eq_true, decide_eq_true_eq]
  exact ⟨fun ⟨h1, h2⟩ => ⟨h1, h2⟩, fun ⟨h1, h2⟩ => ⟨h1, h2⟩⟩

/-- Case folding does not create or destroy decimal digits. -/
theorem toLower_isDigit (c : Char) : (Char.toLower c).isDigit = c.isDigit := by
  unfold Char.toLower
  by_cases h : c.toNat ≥ 65 ∧ c.toNat ≤ 90
  · show (if c.toNat ≥ 65 ∧ c.toNat ≤ 90 then Char.ofNat (c.toNat + 32) else c).isDigit = c.isDigit
    rw [if_pos h]
    obtain ⟨h1, h2⟩ := h
    have hc : c.isDigit = false := by
      rw [← Bool.not_eq_true, isDigit_iff_toNat]; omega
    rw [hc, ← Bool.not_eq_true, isDigit_iff_toNat]
    set n := c.toNat with hn
    intro ⟨ha, hb⟩
    interval_cases n <;> revert ha hb <;> decide
  · show (if c.toNat ≥ 65 ∧ c.toNat ≤ 90 then Char.ofNat (c.toNat + 32) else c).isDigit = c.isDigit
    rw [if_neg h]

theorem exists_digit_lowerStr (t : List Char) :
    (∃ c ∈ lowerStr t, c.isDigit = true) ↔ ∃ c ∈ t, c.isDigit = true := by
  simp only [lowerStr, List.mem_map]
  constructor
  · rintro ⟨c, ⟨a, ha, rfl⟩, hd⟩
    exact ⟨a, ha, by rwa [toLower_isDigit] at hd⟩
  · rintro ⟨a, ha, hd⟩
    exact ⟨Char.toLower a, ⟨a, ha, rfl⟩, by rwa [toLower_isDigit]⟩

theorem mem_dollarStrip {c : Char} {t : List Char} (h : c ∈ dollarStrip t) : c ∈ t := by
  match t with
  | [] => simp [dollarStrip] at h
  | a :: r =>
    by_cases ha : a = '$'
    · simp [dollarStrip, ha] at h
      exact List.mem_cons_of_mem _ h
    · simpa [dollarStrip, ha] using h

theorem takeWhile_not_empty {p : Char → Bool} {t : List Char}
    (h : (t.takeWhile p).isEmpty = false) : ∃ c ∈ t, p c = true := by
  match t with
  | [] => simp [List.takeWhile] at h
  | a :: r =>
    by_cases hp : p a
    · exact ⟨a, List.mem_cons_self a r, hp⟩
    · rw [List.takeWhile_cons, if_neg (by simp [hp])] at h
      simp at h

theorem matchMoneyAt_some_digit {t g : List Char} (h : matchMoneyAt t = some g) :
    ∃ c ∈ t, c.isDigit = true := by
  unfold matchMoneyAt at h
  by_cases he : ((dollarStrip t).takeWhile Char.isDigit).isEmpty
  · simp only [he, if_true] at h
    exact absurd h (by simp)
  · obtain ⟨c, hc, hd⟩ := takeWhile_not_empty (Bool.not_eq_true _ ▸ he)
    exact ⟨c, mem_dollarStrip hc, hd⟩

theorem matchMoneyAt_isSome_of_digit {c : Char} {rest : List Char} (h : c.isDigit = true) :
    (matchMoneyAt (c :: rest)).isSome = true := by
  have hnd : c ≠ '$' := by
    rintro rfl
    simp [Char.isDigit] at h
  have hds : dollarStrip (c :: rest) = c :: rest := by simp [dollarStrip, hnd]
  simp [matchMoneyAt, hds, List.takeWhile_cons, h]

theorem firstMoney_isSome_iff (t : List Char) :
    (firstMoney t).isSome = true ↔ ∃ c ∈ t, c.isDigit = true := by
  induction t with
  | nil => simp [firstMoney]
  | cons a rest ih =>
    constructor
    · intro h
      unfold firstMoney at h
      cases hm : matchMoneyAt (a :: rest) with
      | some g => exact matchMoneyAt_some_digit hm
      | none =>
        rw [hm] at h
        obtain ⟨c, hc, hd⟩ := ih.mp h
        exact ⟨c, List.mem_cons_of_mem _ hc, hd⟩
    · rintro ⟨c, hc, hd⟩
      unfold firstMoney
      rcases List.mem_cons.mp hc with rfl | hc'
      · rcases ho : matchMoneyAt (c :: rest) with _ | g
        · exact absurd (ho ▸ matchMoneyAt_isSome_of_digit hd) (by simp)
        · simp
      · rcases ho : matchMoneyAt (a :: rest) with _ | g
        · exact ih.mpr ⟨c, hc', hd⟩
        · simp

theorem classifyAux_eq_find (l : List Intent) (t : List Char) :
    classifyAux l t =
      ((l.find? fun i => categoryMatches (intentPatterns i) t).getD Intent.general) := by
  induction l with
  | nil => rfl
  | cons i rest ih =>
    by_cases h : categoryMatches (intentPatterns i) t = true
    · simp [classifyAux, h, List.find?]
    · simp only [Bool.not_eq_true] at h
      simp [classifyAux, h, List.find?, ih]

theorem one_lt_length_filter_iff {α : Type} [DecidableEq α] (l : List α) (p : α → Bool)
    (hl : l.Nodup) :
    1 < (l.filter p).length ↔ ∃ a ∈ l, ∃ b ∈ l, a ≠ b ∧ p a = true ∧ p b = true := by
  have hn : (l.filter p).Nodup := hl.filter p
  rw [← List.toFinset_card_of_nodup hn, Finset.one_lt_card]
  simp only [List.mem_toFinset, List.mem_filter]
  constructor
  · rintro ⟨a, ⟨ha, hpa⟩, b, ⟨hb, hpb⟩, hab⟩
    exact ⟨a, ha, b, hb, hab, hpa, hpb⟩
  · rintro ⟨a, ha, b, hb, hab, hpa, hpb⟩
    exact ⟨a, ⟨ha, hpa⟩, b, ⟨hb, hpb⟩, hab⟩

/-- C3: for every input text, classification returns exactly one intent from
the closed enumeration: it is the first category in the fixed table order with
some pattern matching the case-folded text, `general` when none matches, and
it is deterministic (identical input yields the identical intent). -/
theorem classify_first_match_closed (t : List Char) :
    classifyQuery t =
      ((intentKeys.find? fun i => categoryMatches (intentPatterns i) t).getD Intent.general)
    ∧ classifyQuery t ∈ [Intent.life_event, Intent.budget_optimization,
        Intent.investment_analysis, Intent.simulation, Intent.general]
    ∧ (∀ t' : List Char, t' = t → classifyQuery t' = classifyQuery t) := by
  refine ⟨classifyAux_eq_find intentKeys t, ?_, ?_⟩
  · cases h : classifyQuery t <;> simp
  · rintro t' rfl
    rfl

theorem classify_first_match_closed_witness :
    classifyQuery (("i got a bonus").toList) =
      ((intentKeys.find? fun i =>
        categoryMatches (intentPatterns i) (("i got a bonus").toList)).getD Intent.general)
    ∧ classifyQuery (("i got a bonus").toList) = classifyQuery (("i got a bonus").toList) :=
  ⟨(classify_first_match_closed (("i got a bonus").toList)).1,
   (classify_first_match_closed (("i got a bonus").toList)).2.2 (("i got a bonus").toList) rfl⟩

/-- C4: `requires_multiple_agents` is true iff strictly more than one intent
category of the classifier's full pattern table has a matching pattern; it is
false when at most one category matches; and the characterization makes no
reference to the intent the classifier chose. -/
theorem multi_agent_flag_iff (t : List Char) :
    (requiresMultipleAgents t = true ↔
      ∃ i ∈ intentKeys, ∃ j ∈ intentKeys, i ≠ j ∧
        categoryMatches (intentPatterns i) t = true ∧
        categoryMatches (intentPatterns j) t = true)
    ∧ (¬ (∃ i ∈ intentKeys, ∃ j ∈ intentKeys, i ≠ j ∧
        categoryMatches (intentPatterns i) t = true ∧
        categoryMatches (intentPatterns j) t = true) →
        requiresMultipleAgents t = false) := by
  have hiff : requiresMultipleAgents t = true ↔
      ∃ i ∈ intentKeys, ∃ j ∈ intentKeys, i ≠ j ∧
        categoryMatches (intentPatterns i) t = true ∧
        categoryMatches (intentPatterns j) t = true := by
    rw [show requiresMultipleAgents t =
        decide (1 < (intentKeys.filter fun qt => categoryMatches (intentPatterns qt) t).length)
      from rfl, decide_eq_true_eq]
    exact one_lt_length_filter_iff intentKeys _ (by decide)
  refine ⟨hiff, fun h => ?_⟩
  rw [← Bool.not_eq_true, hiff]
  exact h

theorem multi_agent_flag_iff_witness :
    requiresMultipleAgents (("hello there").toList) = false :=
  (multi_agent_flag_iff (("hello there").toList)).2 (by decide)

/-- C8 counterexample: on the raw input `EXECUTE` the pipeline sets the
execute flag, yet no confirmation keyword occurs as a substring of the
original (non-case-folded) text, refuting the claim as stated. -/
theorem execute_flag_counterexample :
    processExecuteFlag (("EXECUTE").toList) = true
    ∧ ¬ ∃ kw ∈ confirmKeywords, kw.toList <:+: ("EXECUTE").toList := by
  constructor
  · decide
  · intro ⟨kw, hkw, hinf⟩
    rw [← containsSub_iff] at hinf
    revert hinf
    fin_cases hkw <;> decide

/-- C8 amended: the execute flag is true iff at least one keyword of the
fixed confirmation list occurs as a substring of the case-folded input
text (`PlannerAgent.process` lowercases before `_extract_context` tests
`kw in user_input`). -/
theorem execute_flag_iff (input : List Char) :
    processExecuteFlag input = true ↔
      ∃ kw ∈ confirmKeywords, kw.toList <:+: lowerStr input := by
  simp only [processExecuteFlag, executeFlag, List.any_eq_true, containsSub_iff]

/-- C5: amount extraction maps `$5,000` to the numeric value 5000 and
`bonus of 5000` to 5000 (first currency-like match, commas stripped before
the numeric parse), and any text with no digits leaves the amount absent. -/
theorem amount_round_trip (t : List Char) :
    ((∀ c ∈ t, c.isDigit = false) → processAmount t = none)
    ∧ parseCtxAmount (processAmount (("$5,000").toList)) = some 5000
    ∧ parseCtxAmount (processAmount (("bonus of 5000").toList)) = some 5000 := by
  refine ⟨fun h => ?_, by decide, by decide⟩
  unfold processAmount amountField
  have hnone : ¬ ∃ c ∈ lowerStr t, c.isDigit = true := by
    rw [exists_digit_lowerStr]
    rintro ⟨c, hc, hd⟩
    rw [h c hc] at hd
    exact Bool.false_ne_true hd
  have h2 : ¬ (firstMoney (lowerStr t)).isSome = true := by
    rw [firstMoney_isSome_iff]; exact hnone
  cases hf : firstMoney (lowerStr t) with
  | none => rfl
  | some g => rw [hf] at h2; simp at h2

theorem amount_round_trip_witness :
    processAmount (("no digits here").toList) = none :=
  (amount_round_trip (("no digits here").toList)).1 (by decide)

/-- C10: the money pattern needs no currency marker, so the amount field is
set iff the input contains a decimal digit; in particular on `in 6 months`,
whose only number is a temporal count, the amount is set to `6`. -/
theorem amount_set_iff_digit (t : List Char) :
    ((processAmount t).isSome = true ↔ ∃ c ∈ t, c.isDigit = true)
    ∧ processAmount (("in 6 months").toList) = some (("6").toList) := by
  constructor
  · unfold processAmount amountField
    rw [show ∀ o : Option (List Char), ∀ f : List Char → List Char,
        (Option.map f o).isSome = o.isSome by rintro (_ | o) f <;> rfl]
    rw [firstMoney_isSome_iff, exists_digit_lowerStr]
  · decide

theorem riskScore_default (risk : List Char) (h1 : risk ≠ ("low").toList)
    (h2 : risk ≠ ("medium").toList) (h3 : risk ≠ ("high").toList) :
    riskScore risk = 3/5 := by
  unfold riskScore risk_map
  rw [List.find?_cons_of_neg, List.find?_cons_of_neg, List.find?_cons_of_neg]
  · rfl
  · simp only [beq_iff_eq]
    exact fun he => h3 he.symm
  · simp only [beq_iff_eq]
    exact fun he => h2 he.symm
  · simp only [beq_iff_eq]
    exact fun he => h1 he.symm

theorem riskScore_cases (risk : List Char) :
    riskScore risk = 2/5 ∨ riskScore risk = 3/5 ∨ riskScore risk = 4/5 := by
  by_cases h1 : risk = ("low").toList
  · subst h1; left; rfl
  by_cases h2 : risk = ("medium").toList
  · subst h2; right; left; rfl
  by_cases h3 : risk = ("high").toList
  · subst h3; right; right; rfl
  · right; left; exact riskScore_default risk h1 h2 h3

/-- C1 counterexample: a context whose timeframe is `0 years` has a known
(parsed) horizon of 0, yet the code's truthiness test gives
`time_score = 0.5` instead of `min(0/30, 1.0) = 0`, and `cash_pct = 0.05`
instead of the claimed `0.10` for a known horizon `< 5`. -/
theorem target_mix_zero_horizon_counterexample :
    horizonOf (some ((("0").toList), (("year").toList))) = some 0
    ∧ time_score (some 0) = 1/2
    ∧ min ((0 : ℚ) / 30) 1 ≠ 1/2
    ∧ cash_pct (some 0) = 1/20
    ∧ cash_pct (some 0) ≠ 1/10 := by
  refine ⟨rfl, rfl, by norm_num, rfl, by norm_num [cash_pct]⟩

/-- C1 amended: the target-mix formulas hold with the truthiness caveat —
the `min(horizon/30, 1.0)` and `< 5 years` rules apply only to a known
NONZERO horizon, while an absent or zero horizon yields `time_score = 0.5`
and `cash_pct = 0.05`; `stock_pct` and `bond_pct` follow the claimed
formulas, the three percentages sum to exactly 1 whenever `bond_pct` is not
clamped to 0, and `bond_pct = 0` when clamped. -/
theorem target_mix_formulas (risk : List Char) (hz : Option ℤ) :
    (riskScore (("low").toList) = 2/5 ∧ riskScore (("medium").toList) = 3/5 ∧
      riskScore (("high").toList) = 4/5) ∧
    (risk ≠ ("low").toList → risk ≠ ("medium").toList → risk ≠ ("high").toList →
      riskScore risk = 3/5) ∧
    (∀ h : ℤ, hz = some h → h ≠ 0 → time_score hz = min ((h : ℚ) / 30) 1) ∧
    (hz = none ∨ hz = some 0 → time_score hz = 1/2) ∧
    stock_pct risk hz = 3/10 + 3/5 * (1/2 * riskScore risk + 1/2 * time_score hz) ∧
    (∀ h : ℤ, hz = some h → h ≠ 0 → h < 5 → cash_pct hz = 1/10) ∧
    (∀ h : ℤ, hz = some h → h ≠ 0 → ¬ h < 5 → cash_pct hz = 1/20) ∧
    (hz = none ∨ hz = some 0 → cash_pct hz = 1/20) ∧
    bond_pct risk hz = max 0 (1 - stock_pct risk hz - cash_pct hz) ∧
    (bond_pct risk hz ≠ 0 → stock_pct risk hz + bond_pct risk hz + cash_pct hz = 1) ∧
    (1 - stock_pct risk hz - cash_pct hz ≤ 0 → bond_pct risk hz = 0) := by
  refine ⟨⟨rfl, rfl, rfl⟩, riskScore_default risk, ?_, ?_, rfl, ?_, ?_, ?_,
    rfl, ?_, ?_⟩
  · rintro h rfl hne
    simp [time_score, hne]
  · rintro (rfl | rfl) <;> simp [time_score]
  · rintro h rfl hne hlt
    simp only [cash_pct, if_pos (And.intro hne hlt)]
  · rintro h rfl hne hge
    rw [show cash_pct (some h) = if h ≠ 0 ∧ h < 5 then 1/10 else 1/20 from rfl,
      if_neg (fun hc => hge hc.2)]
  · rintro (rfl | rfl) <;> simp [cash_pct]
  · intro hb
    rcases le_total (1 - stock_pct risk hz - cash_pct hz) 0 with hle | hge
    · exact absurd (max_eq_left hle) hb
    · rw [show bond_pct risk hz = max 0 (1 - stock_pct risk hz - cash_pct hz) from rfl,
        max_eq_right hge]
      ring
  · intro hle
    exact max_eq_left hle

theorem target_mix_formulas_witness :
    time_score (some 2) = min ((2 : ℚ) / 30) 1 ∧ cash_pct (some 2) = 1/10 :=
  ⟨(target_mix_formulas (("high").toList) (some 2)).2.2.1 2 rfl (by decide),
   (target_mix_formulas (("high").toList) (some 2)).2.2.2.2.2.1 2 rfl (by decide) (by decide)⟩

/-- C2 counterexample: with risk `high` and a known 30-year horizon the
engine's `stock_pct` is exactly 0.84, below the claimed interval
[0.85, 0.90]; with risk `low` and a 1-year horizon it is exactly 0.43,
above the claimed interval [0.30, 0.40]. -/
theorem stock_bounds_counterexample :
    stock_pct (("high").toList) (some 30) = 84/100
    ∧ ¬ (85/100 ≤ stock_pct (("high").toList) (some 30))
    ∧ stock_pct (("low").toList) (some 1) = 43/100
    ∧ ¬ (stock_pct (("low").toList) (some 1) ≤ 40/100) := by
  refine ⟨?_, ?_, ?_, ?_⟩
  all_goals norm_num [stock_pct, riskScore, risk_map, List.find?, time_score]

/-- C2 amended: with risk `high`, horizon 30 years, `stock_pct` equals 0.84
(within [0.84, 0.90]); with risk `low`, horizon 1 year, `stock_pct` equals
0.43 (within [0.30, 0.43]) and `cash_pct` equals 0.10. -/
theorem stock_bounds_amended :
    stock_pct (("high").toList) (some 30) = 84/100
    ∧ 84/100 ≤ stock_pct (("high").toList) (some 30)
    ∧ stock_pct (("high").toList) (some 30) ≤ 90/100
    ∧ stock_pct (("low").toList) (some 1) = 43/100
    ∧ 30/100 ≤ stock_pct (("low").toList) (some 1)
    ∧ stock_pct (("low").toList) (some 1) ≤ 43/100
    ∧ cash_pct (some 1) = 1/10 := by
  refine ⟨?_, ?_, ?_, ?_, ?_, ?_, rfl⟩
  all_goals norm_num [stock_pct, riskScore, risk_map, List.find?, time_score]

/-- C9: for every risk tolerance and every horizon the engine can receive
(absent, or a parsed nonnegative integer), `stock_pct` lies in
[0.43, 0.84], `cash_pct` is 0.05 or 0.10, their sum is at most 0.94, so the
`max(0, ...)` clamp on `bond_pct` never fires: `bond_pct` equals
`1 - stock_pct - cash_pct` exactly, is at least 0.06, and the three target
percentages sum to exactly 1. -/
theorem allocation_clamp_unreachable (risk : List Char) (hz : Option ℤ)
    (hnn : ∀ h : ℤ, hz = some h → 0 ≤ h) :
    43/100 ≤ stock_pct risk hz ∧ stock_pct risk hz ≤ 84/100
    ∧ (cash_pct hz = 1/20 ∨ cash_pct hz = 1/10)
    ∧ stock_pct risk hz + cash_pct hz ≤ 94/100
    ∧ bond_pct risk hz = 1 - stock_pct risk hz - cash_pct hz
    ∧ 6/100 ≤ bond_pct risk hz
    ∧ stock_pct risk hz + bond_pct risk hz + cash_pct hz = 1 := by
  have hrs1 : 2/5 ≤ riskScore risk ∧ riskScore risk ≤ 4/5 := by
    rcases riskScore_cases risk with h | h | h <;> rw [h] <;> norm_num
  have hts : 1/30 ≤ time_score hz ∧ time_score hz ≤ 1 := by
    cases hz with
    | none =>
      constructor <;> · show _ ≤ _; norm_num [time_score]
    | some h =>
      by_cases h0 : h = 0
      · subst h0
        constructor <;> · show _ ≤ _; norm_num [time_score]
      · have h1 : (1 : ℤ) ≤ h := by
          have := hnn h rfl
          omega
        have h1q : (1 : ℚ) ≤ (h : ℚ) := by exact_mod_cast h1
        rw [show time_score (some h) = if h = 0 then 1/2 else min ((h : ℚ) / 30) 1 from rfl,
          if_neg h0]
        refine ⟨le_min (by linarith) (by norm_num), min_le_right _ _⟩
  obtain ⟨hr1, hr2⟩ := hrs1
  obtain ⟨ht1, ht2⟩ := hts
  have hs1 : 43/100 ≤ stock_pct risk hz := by
    rw [show stock_pct risk hz =
      3/10 + 3/5 * (1/2 * riskScore risk + 1/2 * time_score hz) from rfl]
    linarith
  have hs2 : stock_pct risk hz ≤ 84/100 := by
    rw [show stock_pct risk hz =
      3/10 + 3/5 * (1/2 * riskScore risk + 1/2 * time_score hz) from rfl]
    linarith
  have hc : cash_pct hz = 1/20 ∨ cash_pct hz = 1/10 := by
    cases hz with
    | none => left; rfl
    | some h =>
      by_cases hcond : h ≠ 0 ∧ h < 5
      · right
        rw [show cash_pct (some h) = if h ≠ 0 ∧ h < 5 then 1/10 else 1/20 from rfl,
          if_pos hcond]
      · left
        rw [show cash_pct (some h) = if h ≠ 0 ∧ h < 5 then 1/10 else 1/20 from rfl,
          if_neg hcond]
  have hcle : cash_pct hz ≤ 1/10 := by
    rcases hc with h | h
    · rw [h]; norm_num
    · rw [h]
  have hcge : 1/20 ≤ cash_pct hz := by
    rcases hc with h | h
    · rw [h]
    · rw [h]; norm_num
  have hpos : 0 ≤ 1 - stock_pct risk hz - cash_pct hz := by linarith
  have hbond : bond_pct risk hz = 1 - stock_pct risk hz - cash_pct hz := by
    rw [show bond_pct risk hz = max 0 (1 - stock_pct risk hz - cash_pct hz) from rfl,
      max_eq_right hpos]
  exact ⟨hs1, hs2, hc, by linarith, hbond, by rw [hbond]; linarith, by rw [hbond]; ring⟩

theorem allocation_clamp_unreachable_witness :
    stock_pct (("high").toList) (some 30) + bond_pct (("high").toList) (some 30)
      + cash_pct (some 30) = 1 :=
  (allocation_clamp_unreachable (("high").toList) (some 30)
    (by rintro h hh; cases hh; decide)).2.2.2.2.2.2

/-- C6: the investable base follows a fixed precedence — a parseable
explicit amount is used directly as a one-time lump sum split by the target
percentages; otherwise, with a (nonzero) derived monthly income available,
the base is `monthly_income - sum(recurring_expenses.values())` (possibly
negative) as a recurring monthly figure; otherwise the result carries only
the target percentages, with no dollar figures. -/
theorem investable_base_precedence (ctx : EngineCtx) (inc : ℚ)
    (fx : List (List Char × ℚ)) :
    (∀ a : ℚ, parseCtxAmount ctx.amount = some a →
      processInvestment ctx inc fx =
        EngineResult.lumpSum
          (a * stock_pct (ctx.risk_tolerance.getD (("medium").toList)) (horizonOf ctx.timeframe))
          (a * bond_pct (ctx.risk_tolerance.getD (("medium").toList)) (horizonOf ctx.timeframe))
          (a * cash_pct (horizonOf ctx.timeframe)))
    ∧ (parseCtxAmount ctx.amount = none → inc ≠ 0 →
      processInvestment ctx inc fx =
        EngineResult.recurring
          ((inc - (fx.map Prod.snd).sum) *
            stock_pct (ctx.risk_tolerance.getD (("medium").toList)) (horizonOf ctx.timeframe))
          ((inc - (fx.map Prod.snd).sum) *
            bond_pct (ctx.risk_tolerance.getD (("medium").toList)) (horizonOf ctx.timeframe))
          ((inc - (fx.map Prod.snd).sum) * cash_pct (horizonOf ctx.timeframe)))
    ∧ (parseCtxAmount ctx.amount = none → inc = 0 →
      processInvestment ctx inc fx =
        EngineResult.percentOnly
          (stock_pct (ctx.risk_tolerance.getD (("medium").toList)) (horizonOf ctx.timeframe))
          (bond_pct (ctx.risk_tolerance.getD (("medium").toList)) (horizonOf ctx.timeframe))
          (cash_pct (horizonOf ctx.timeframe))) := by
  refine ⟨fun a ha => ?_, fun ha hinc => ?_, fun ha hinc => ?_⟩
  · simp [processInvestment, ha]
  · simp [processInvestment, ha, available_for_investment, hinc]
  · simp [processInvestment, ha, available_for_investment, hinc]

theorem investable_base_precedence_witness :
    processInvestment ⟨some (("100").toList), none, none⟩ 0 [] =
      EngineResult.lumpSum (100 * stock_pct (("medium").toList) none)
        (100 * bond_pct (("medium").toList) none) (100 * cash_pct none) :=
  (investable_base_precedence ⟨some (("100").toList), none, none⟩ 0 []).1 100 rfl

/-- C7: numeric edge cases never raise — an unparseable amount string
behaves exactly as an absent amount, a zero total portfolio value yields a
current-percentage share of 0 rather than a division by zero, and an
absent horizon yields `time_score = 0.5`. -/
theorem engine_edge_safety (amt : List Char) (r : Option (List Char))
    (tf : Option (List Char × List Char)) (inc : ℚ) (fx : List (List Char × ℚ))
    (v : ℚ) (hbad : pyFloat amt = none) :
    processInvestment ⟨some amt, r, tf⟩ inc fx = processInvestment ⟨none, r, tf⟩ inc fx
    ∧ currentPct v 0 = 0
    ∧ time_score none = 1/2 := by
  refine ⟨?_, by simp [currentPct], rfl⟩
  have hparse : parseCtxAmount (some amt) = none := by
    rw [show parseCtxAmount (some amt) = if amt.isEmpty then none else pyFloat amt from rfl]
    by_cases he : amt.isEmpty = true
    · rw [if_pos he]
    · rw [if_neg he, hbad]
  simp only [processInvestment]
  rw [hparse]
  exact rfl

theorem engine_edge_safety_witness :
    processInvestment ⟨some (("abc").toList), none, none⟩ 7 [] =
      processInvestment ⟨none, none, none⟩ 7 []
    ∧ currentPct 3 0 = 0 :=
  ⟨(engine_edge_safety (("abc").toList) none none 7 [] 3 rfl).1,
   (engine_edge_safety (("abc").toList) none none 7 [] 3 rfl).2.1⟩

end Finance
